import Mathlib

/-!
Verification development for the Cost_To_Serve-Analytics prescriptive engine.

The five prescriptive modules (traffic, waiting-time/delay-penalty weather,
asset utilization, weather efficiency, driver performance) share a
bin → aggregate → support-filter → select → build shape.  This file gives a
shallow embedding of the relevant computations over exact rationals
(idealizing IEEE floats) and proves or refutes the specification claims.

Binning is `pandas.cut`: with the default `right=True`, intervals are
right-closed and left-open, `(b_i, b_{i+1}]`; `include_lowest=True` closes the
lowest interval on the left as well.  Values covered by no interval map to the
null category (`none`), and records whose bin label is null are dropped by a
subsequent `groupby` on that label.
-/

set_option maxRecDepth 2000

namespace CTS

/-- Boundary values of a bin definition: a rational or ±∞
(`numpy.inf` appears in every module's boundary lists). -/
inductive B where
  | ninf : B
  | fin : ℚ → B
  | pinf : B
deriving DecidableEq

/-- `ble a b` is the boolean `a ≤ b` on boundaries. -/
def ble : B → B → Bool
  | .ninf, .ninf => true
  | .ninf, .fin _ => true
  | .ninf, .pinf => true
  | .fin _, .ninf => false
  | .fin a, .fin b => decide (a ≤ b)
  | .fin _, .pinf => true
  | .pinf, .ninf => false
  | .pinf, .fin _ => false
  | .pinf, .pinf => true

/-- `blt a b` is the boolean `a < b` on boundaries. -/
def blt (a b : B) : Bool := !(ble b a)

/-- `blt` as a relation, used for strict monotonicity of boundary lists. -/
def bltP (a b : B) : Prop := blt a b = true

theorem ble_trans : ∀ {a b c : B}, ble a b = true → ble b c = true → ble a c = true := by
  intro a b c h1 h2
  cases a <;> cases b <;> cases c <;> simp_all [ble]
  all_goals linarith

theorem ble_total : ∀ (a b : B), ble a b = true ∨ ble b a = true := by
  intro a b
  cases a <;> cases b <;> simp [ble]
  all_goals exact le_total _ _

theorem ble_of_ble_of_blt {a b c : B} (h1 : ble a b = true) (h2 : blt b c = true) :
    ble a c = true := by
  rcases ble_total a c with h | h
  · exact h
  · exact absurd (ble_trans h h1) (by simpa [blt] using h2)

theorem blt_trans {a b c : B} (h1 : blt a b = true) (h2 : blt b c = true) :
    blt a c = true := by
  have hab : ble a b = true := by
    rcases ble_total a b with h | h
    · exact h
    · exact absurd h (by simpa [blt] using h1)
  simp only [blt, Bool.not_eq_true']
  by_contra hca
  simp only [Bool.not_eq_false] at hca
  exact absurd (ble_trans hca hab) (by simpa [blt] using h2)

instance : IsTrans B bltP := ⟨fun _ _ _ h1 h2 => blt_trans h1 h2⟩

theorem ble_eq_false_of_blt {a b : B} (h : blt a b = true) : ble b a = false := by
  cases hb : ble b a
  · rfl
  · exfalso
    have h2 : (!(ble b a)) = true := h
    rw [hb] at h2
    simp at h2

/-- Core of `pandas.cut` applied to one value: walk the adjacent boundary
pairs together with the labels; a value hits interval `(lo, hi]`, where the
lowest interval is `[lo, hi]` when `include_lowest` is set.  Falling through
every interval yields the null category `none`. -/
def pdCutGo (v : ℚ) : List B → List String → Bool → Option String
  | lo :: hi :: bs, lab :: labs, inc =>
    if (blt lo (B.fin v) || (inc && ble lo (B.fin v))) && ble (B.fin v) hi then some lab
    else pdCutGo v (hi :: bs) labs false
  | _, _, _ => none

/-- `pandas.cut(value, bins, labels, include_lowest)` for a single value.
With `includeLowest = false` this is the module default (`right=True`). -/
def pdCut (bins : List B) (labels : List String) (includeLowest : Bool) (v : ℚ) :
    Option String :=
  pdCutGo v bins labels includeLowest

/-- `binHit bins inc v i` says value `v` lies in the `i`-th interval of the
bin definition: `bins[i] < v ≤ bins[i+1]`, with `bins[0] ≤ v ≤ bins[1]`
also admitted for `i = 0` when `inc` (include_lowest) is set. -/
def binHit (bins : List B) (inc : Bool) (v : ℚ) (i : ℕ) : Bool :=
  (blt (bins.getD i .pinf) (B.fin v) ||
    (inc && (i == 0) && ble (bins.getD 0 .pinf) (B.fin v))) &&
  ble (B.fin v) (bins.getD (i + 1) .ninf)

theorem binHit_shift (lo : B) (t : List B) (inc : Bool) (v : ℚ) (i : ℕ) :
    binHit (lo :: t) inc v (i + 1) = binHit t false v i := by
  simp [binHit, List.getD_cons_succ]

theorem binHit_zero (lo hi : B) (t : List B) (inc : Bool) (v : ℚ) :
    binHit (lo :: hi :: t) inc v 0 =
      ((blt lo (B.fin v) || (inc && ble lo (B.fin v))) && ble (B.fin v) hi) := by
  simp [binHit]

theorem getD_of_lt {α : Type} {l : List α} {n : ℕ} {d : α} (h : n < l.length) :
    l.getD n d = l.get ⟨n, h⟩ := by
  simp [List.getD_eq_getElem?_getD, List.getElem?_eq_getElem h]

/-- At most one interval of a strictly increasing boundary list contains a
given value (the helper for the `i < j` case). -/
theorem binHit_unique_lt (bs : List B) (inc : Bool) (v : ℚ) (i j : ℕ)
    (hc : List.Chain' bltP bs) (hi : i + 1 < bs.length) (hj : j + 1 < bs.length)
    (hij : i < j) (h1 : binHit bs inc v i = true) (h2 : binHit bs inc v j = true) :
    False := by
  have hup : ble (B.fin v) (bs.getD (i + 1) .ninf) = true := by
    simp only [binHit, Bool.and_eq_true] at h1
    exact h1.2
  have hlow : blt (bs.getD j .pinf) (B.fin v) = true := by
    simp only [binHit, Bool.and_eq_true, Bool.or_eq_true] at h2
    rcases h2.1 with h | h
    · exact h
    · exfalso
      have hj0 : (j == 0) = true := h.1.2
      simp only [beq_iff_eq] at hj0
      omega
  have hpw : List.Pairwise bltP bs := List.chain'_iff_pairwise.mp hc
  have hi1 : i + 1 < bs.length := hi
  have hjlen : j < bs.length := by omega
  rw [getD_of_lt hi1] at hup
  rw [getD_of_lt hjlen] at hlow
  rcases Nat.eq_or_lt_of_le (Nat.succ_le_of_lt hij) with heq | hlt
  · have hgeq : bs.get ⟨i + 1, hi1⟩ = bs.get ⟨j, hjlen⟩ := congrArg bs.get (Fin.ext heq)
    rw [hgeq] at hup
    rw [ble_eq_false_of_blt hlow] at hup
    exact absurd hup (by simp)
  · have hrel : bltP (bs.get ⟨i + 1, hi1⟩) (bs.get ⟨j, hjlen⟩) :=
      List.pairwise_iff_get.mp hpw ⟨i + 1, hi1⟩ ⟨j, hjlen⟩ (Fin.mk_lt_mk.mpr hlt)
    have hvj : ble (B.fin v) (bs.get ⟨j, hjlen⟩) = true := ble_of_ble_of_blt hup hrel
    rw [ble_eq_false_of_blt hlow] at hvj
    exact absurd hvj (by simp)

/-- For strictly increasing boundaries, a value lies in at most one interval. -/
theorem binHit_unique (bs : List B) (inc : Bool) (v : ℚ) (i j : ℕ)
    (hc : List.Chain' bltP bs) (hi : i + 1 < bs.length) (hj : j + 1 < bs.length)
    (h1 : binHit bs inc v i = true) (h2 : binHit bs inc v j = true) : i = j := by
  rcases Nat.lt_trichotomy i j with h | h | h
  · exact absurd (binHit_unique_lt bs inc v i j hc hi hj h h1 h2) (by simp)
  · exact h
  · exact absurd (binHit_unique_lt bs inc v j i hc hj hi h h2 h1) (by simp)

/-- Soundness: when `pandas.cut` assigns a label, the value lies in the
corresponding interval. -/
theorem pdCutGo_sound : ∀ (bs : List B) (labs : List String) (inc : Bool) (v : ℚ)
    (lab : String), pdCutGo v bs labs inc = some lab →
    ∃ i, i + 1 < bs.length ∧ i < labs.length ∧ binHit bs inc v i = true ∧
      labs.getD i "" = lab
  | lo :: hi :: bs, lab0 :: labs, inc, v, lab, h => by
    by_cases hc0 : ((blt lo (B.fin v) || (inc && ble lo (B.fin v))) && ble (B.fin v) hi) = true
    · refine ⟨0, by simp, by simp, ?_, ?_⟩
      · rw [binHit_zero]; exact hc0
      · simp only [pdCutGo, hc0, if_true] at h
        simpa using h
    · simp only [pdCutGo, hc0, if_false, Bool.false_eq_true] at h
      obtain ⟨i, h1, h2, h3, h4⟩ := pdCutGo_sound (hi :: bs) labs false v lab h
      refine ⟨i + 1, by simpa using Nat.succ_lt_succ h1, by simpa using Nat.succ_lt_succ h2,
        ?_, by simpa using h4⟩
      rw [binHit_shift]
      exact h3
  | [], labs, inc, v, lab, h => by simp [pdCutGo] at h
  | [x], labs, inc, v, lab, h => by simp [pdCutGo] at h
  | x :: y :: t, [], inc, v, lab, h => by simp [pdCutGo] at h

/-- Completeness: a value lying in interval `i` of a strictly increasing
boundary list is assigned exactly the `i`-th label. -/
theorem pdCutGo_complete : ∀ (bs : List B) (labs : List String) (inc : Bool) (v : ℚ)
    (i : ℕ), List.Chain' bltP bs → i + 1 < bs.length → i < labs.length →
    binHit bs inc v i = true → pdCutGo v bs labs inc = some (labs.getD i "")
  | lo :: hi :: bs, lab0 :: labs, inc, v, 0, hc, h1, h2, hh => by
    rw [binHit_zero] at hh
    simp [pdCutGo, hh]
  | lo :: hi :: bs, lab0 :: labs, inc, v, i + 1, hc, h1, h2, hh => by
    by_cases hc0 : ((blt lo (B.fin v) || (inc && ble lo (B.fin v))) && ble (B.fin v) hi) = true
    · exfalso
      have h0 : binHit (lo :: hi :: bs) inc v 0 = true := by rw [binHit_zero]; exact hc0
      have := binHit_unique (lo :: hi :: bs) inc v 0 (i + 1) hc (by simp)
        (by simpa using h1) h0 hh
      omega
    · have hh2 : binHit (hi :: bs) false v i = true := by
        rw [← binHit_shift lo (hi :: bs) inc v i]
        exact hh
      have hrec := pdCutGo_complete (hi :: bs) labs false v i hc.tail
        (by simpa using Nat.lt_of_succ_lt_succ h1) (by simpa using Nat.lt_of_succ_lt_succ h2) hh2
      simp only [pdCutGo, hc0, if_false, Bool.false_eq_true]
      simpa using hrec
  | [], labs, inc, v, i, hc, h1, h2, hh => by simp at h1
  | [x], labs, inc, v, i, hc, h1, h2, hh => by simp at h1
  | x :: y :: t, [], inc, v, i, hc, h1, h2, hh => by simp at h2

/-! Bin definitions of the five instantiations, copied from the sources. -/

/-- Temperature bins of the delay-penalty weather module
(file `waiting_time_optimization.py`, `preprocess`): `[-inf,10,15,20,25,30,35,inf]`. -/
def tempBins : List B :=
  [B.ninf, B.fin 10, B.fin 15, B.fin 20, B.fin 25, B.fin 30, B.fin 35, B.pinf]

/-- Temperature labels of the delay-penalty weather module. -/
def tempLabels : List String :=
  ["<10°C", "10–15°C", "15–20°C", "20–25°C", "25–30°C", "30–35°C", ">35°C"]

/-- Humidity bins of the delay-penalty weather module: `[0,20,30,40,50,60,70,80,inf]`.
Note the first boundary is 0, not −∞, and `include_lowest` is not passed. -/
def humBins : List B :=
  [B.fin 0, B.fin 20, B.fin 30, B.fin 40, B.fin 50, B.fin 60, B.fin 70, B.fin 80, B.pinf]

/-- Humidity labels of the delay-penalty weather module. -/
def humLabels : List String :=
  ["0–20%", "20–30%", "30–40%", "40–50%", "50–60%", "60–70%", "70–80%", "80%+"]

/-- Utilization bins of the asset module (`analyze_utilization`):
`[0, 0.4, 0.6, 0.8, 1.0, inf]`, cut with `include_lowest=True`. -/
def assetBins : List B :=
  [B.fin 0, B.fin (2/5), B.fin (3/5), B.fin (4/5), B.fin 1, B.pinf]

/-- Utilization labels of the asset module. -/
def assetLabels : List String := ["0–40%", "40–60%", "60–80%", "80–100%", "100%+"]

/-- Temperature bins of the weather-efficiency module (`weather_optimization.py`):
`[-inf, 20, 25, 30, 35, inf]`. -/
def wxTempBins : List B := [B.ninf, B.fin 20, B.fin 25, B.fin 30, B.fin 35, B.pinf]

/-- Temperature labels of the weather-efficiency module. -/
def wxTempLabels : List String := ["<20°C", "20–25°C", "25–30°C", "30–35°C", ">35°C"]

/-- Humidity bins of the weather-efficiency module: `[-inf, 40, 60, 80, inf]`. -/
def wxHumBins : List B := [B.ninf, B.fin 40, B.fin 60, B.fin 80, B.pinf]

/-- Humidity labels of the weather-efficiency module. -/
def wxHumLabels : List String := ["<40%", "40–60%", "60–80%", ">80%"]

/-! Grouped aggregation (pandas `groupby(...).agg(mean, count, sum)`). -/

/-- Arithmetic mean (pandas `mean`; exact rationals idealize floats).  On an
empty list this is `0/0 = 0` where pandas would give `NaN`; every use below is
guarded by a support filter with a positive minimum count, which removes empty
groups in both semantics. -/
def avgQ (l : List ℚ) : ℚ := l.sum / (l.length : ℚ)

/-- One aggregate row of a categorical `groupby`: the bin label, the mean of
the target metric over the group, and the group's record count. -/
structure ARow where
  label : String
  avg : ℚ
  count : ℕ
deriving DecidableEq

/-- `groupby` on a categorical bin-label column with `observed=False` (the
pandas default here): one aggregate row per category, in category order; rows
whose bin label is the null category are dropped. -/
def summaryByCats {α : Type} (cats : List String) (recs : List α)
    (k : α → Option String) (tgt : α → ℚ) : List ARow :=
  cats.map fun c =>
    let g := recs.filter fun r => k r == some c
    { label := c, avg := avgQ (g.map tgt), count := g.length }

/-- Support Filter: retain aggregate rows whose count meets the minimum
(`summary[summary["count"] >= min_records]`). -/
def supportFilter (rows : List ARow) (minCount : ℕ) : List ARow :=
  rows.filter fun r => minCount ≤ r.count

/-- pandas `idxmin` followed by `.loc`: the first row (in row order) whose
`f`-value is minimal, `none` on an empty frame. -/
def firstMin {α : Type} (f : α → ℚ) (l : List α) : Option α :=
  l.find? fun a => l.all fun b => decide (f a ≤ f b)

/-- Python `round(x, 2)` idealized on rationals: scale by 100, round half to
even (banker's rounding), scale back. -/
def roundHalfEven (q : ℚ) : ℤ :=
  let f := ⌊q⌋
  let r := q - (f : ℚ)
  if r < 1/2 then f
  else if 1/2 < r then f + 1
  else if f % 2 = 0 then f else f + 1

/-- `round(x, 2)` at emission of a recommendation. -/
def round2 (q : ℚ) : ℚ := ((roundHalfEven (q * 100) : ℤ) : ℚ) / 100

/-! The delay-penalty weather module (file `waiting_time_optimization.py`):
`analyze_weather_effect` groups the delay penalty by temperature range and by
humidity range independently. -/

/-- A record of the delay-penalty weather module after numeric coercion
(`preprocess` lines 54–56). -/
structure WRec where
  temperature : ℚ
  humidity : ℚ
  delay_penalty : ℚ
deriving DecidableEq

/-- `df["temp_range"] = pd.cut(df["temperature"], temp_bins, temp_labels)`. -/
def tempRangeOf (r : WRec) : Option String := pdCut tempBins tempLabels false r.temperature

/-- `df["humidity_range"] = pd.cut(df["humidity"], humidity_bins, humidity_labels)`. -/
def humRangeOf (r : WRec) : Option String := pdCut humBins humLabels false r.humidity

/-- The single recommendation row emitted by `analyze_weather_effect`. -/
structure WOut where
  optimal_temperature_range : String
  optimal_humidity_range : String
  min_avg_penalty : ℚ
  current_avg_penalty : ℚ
  estimated_savings_per_trip : ℚ
  temp_records_analyzed : ℕ
  humidity_records_analyzed : ℕ
deriving DecidableEq

/-- `temp_summary = df.groupby("temp_range").agg(avg_penalty, count)`. -/
def temp_summary (recs : List WRec) : List ARow :=
  summaryByCats tempLabels recs tempRangeOf (fun r => r.delay_penalty)

/-- `humidity_summary = df.groupby("humidity_range").agg(avg_penalty, count)`. -/
def humidity_summary (recs : List WRec) : List ARow :=
  summaryByCats humLabels recs humRangeOf (fun r => r.delay_penalty)

/-- `analyze_weather_effect(df, min_records)`: support-filter both summaries,
short-circuit to no recommendation when either is empty, otherwise pick the
penalty-minimal temperature and humidity rows independently and emit the
recommendation, rounding each reported number to 2 decimals. -/
def analyze_weather_effect (recs : List WRec) (min_records : ℕ) : Option WOut :=
  let tS := supportFilter (temp_summary recs) min_records
  let hS := supportFilter (humidity_summary recs) min_records
  match firstMin (fun r => r.avg) tS, firstMin (fun r => r.avg) hS with
  | some ot, some oh =>
    let current := avgQ (recs.map fun r => r.delay_penalty)
    let minAvg := (ot.avg + oh.avg) / 2
    some { optimal_temperature_range := ot.label,
           optimal_humidity_range := oh.label,
           min_avg_penalty := round2 minAvg,
           current_avg_penalty := round2 current,
           estimated_savings_per_trip := round2 (current - minAvg),
           temp_records_analyzed := ot.count,
           humidity_records_analyzed := oh.count }
  | _, _ => none

/-- Default `min_records` of `analyze_weather_effect` (the only instantiation
whose support threshold is 10). -/
def analyze_weather_effect_default_min_records : ℕ := 10

/-- Default `min_trips_threshold` of `analyze_weather` in
`weather_optimization.py`. -/
def analyze_weather_default_min_trips : ℕ := 5

/-- Default `min_trips_threshold` of `analyze_traffic_cost` in
`traffic_optimization.py`. -/
def analyze_traffic_default_min_trips : ℕ := 5

/-! Quantile tiering of the asset module (`analyze_utilization`, lines 69–81). -/

/-- Ascending sort of the per-entity efficiency scores. -/
def sortQ (l : List ℚ) : List ℚ := List.insertionSort (fun a b => a ≤ b) l

/-- pandas `Series.quantile(q)` with the default linear interpolation:
position `h = q*(n-1)` between order statistics `ss[⌊h⌋]` and `ss[⌊h⌋+1]`. -/
def quantile (l : List ℚ) (q : ℚ) : ℚ :=
  let ss := sortQ l
  if ss.length = 0 then 0
  else
    let h : ℚ := q * ((ss.length : ℚ) - 1)
    let j : ℕ := (⌊h⌋).toNat
    let a := ss.getD j 0
    let b := ss.getD (j + 1) a
    a + (h - (j : ℚ)) * (b - a)

/-- `performance_tier(row)`: `>= q_high` wins first, then `<= q_low`, else
moderate. -/
def performance_tier (qlow qhigh s : ℚ) : String :=
  if qhigh ≤ s then "High Performer"
  else if s ≤ qlow then "Underperformer"
  else "Moderate Performer"

/-- The tier assignment over the per-asset efficiency scores: thresholds are
the 33rd and 67th percentiles of the score list. -/
def assetTiers (scores : List ℚ) : List (ℚ × String) :=
  let ql := quantile scores (33/100)
  let qh := quantile scores (67/100)
  scores.map fun s => (s, performance_tier ql qh s)

/-! Column-presence behaviour of the preprocess stages (missing-column
handling).  A table is its list of named numeric columns. -/

/-- A loaded table: named numeric columns. -/
abbrev Table := List (String × List ℚ)

/-- `col in df.columns`. -/
def hasCol (t : Table) (c : String) : Bool := t.any fun p => p.1 == c

/-- Look up a column by name. -/
def getCol (t : Table) (c : String) : Option (List ℚ) :=
  (t.find? fun p => p.1 == c).map fun p => p.2

/-- `len(df)`: number of rows (via the first column). -/
def nrows (t : Table) : ℕ := (t.head?.map fun p => p.2.length).getD 0

/-- The zero-filling loop of `driver_performance_optimization.preprocess` and
`weather_optimization.preprocess`: for each required column absent from the
table, append a zero column and log a warning; never raise. -/
def fillZeros (n : ℕ) : Table → List String → Table × List String
  | t, [] => (t, [])
  | t, c :: cs =>
    if hasCol t c then fillZeros n t cs
    else
      let rest := fillZeros n (t ++ [(c, List.replicate n 0)]) cs
      (rest.1, ("Missing column " ++ c ++ ", filling with zeros.") :: rest.2)

/-- Columns the driver module needs for its core efficiency computation. -/
def driver_required : List String := ["asset_utilization", "waiting_time", "idle_cost"]

/-- `efficiency = (asset_utilization / (waiting_time + 1)) * (1 / (idle_cost + 1)) * 100`. -/
def driver_efficiency (u w ic : ℚ) : ℚ := (u / (w + 1)) * (1 / (ic + 1)) * 100

/-- `driver_performance_optimization.preprocess`: zero-fill missing required
columns with a logged warning, then compute the efficiency column.  The return
type records that no exception is raised on a missing column. -/
def driver_preprocess (t : Table) : Table × List String :=
  let fw := fillZeros (nrows t) t driver_required
  let u := (getCol fw.1 "asset_utilization").getD []
  let w := (getCol fw.1 "waiting_time").getD []
  let ic := (getCol fw.1 "idle_cost").getD []
  (fw.1 ++ [("efficiency", List.zipWith3 driver_efficiency u w ic)], fw.2)

/-- Columns `asset_utilization_optimization.preprocess` requires. -/
def asset_required : List String :=
  ["Asset_ID", "Asset_Utilization", "Cost_per_Asset_Utilization", "Idle_Cost"]

/-- The required-column loop shared by `asset_utilization_optimization` and
`waiting_time_optimization`: raise `KeyError` on the first missing required
column (with the module's message prefix), otherwise pass the table through
(numeric coercion of already-numeric columns is the identity here). -/
def requireCols (req : List String) (msg : String) (t : Table) : Except String Table :=
  match req.find? fun c => !(hasCol t c) with
  | some c => .error (msg ++ c)
  | none => .ok t

/-- `asset_utilization_optimization.preprocess`: raises on a missing required
column. -/
def asset_preprocess (t : Table) : Except String Table :=
  requireCols asset_required "Missing column: " t

/-- Columns `waiting_time_optimization.preprocess` (the delay-penalty weather
module) requires. -/
def weather_effect_required : List String := ["temperature", "humidity", "delay_penalty"]

/-- The required-column check of `waiting_time_optimization.preprocess`:
raises on a missing required column. -/
def weather_effect_preprocess_check (t : Table) : Except String Table :=
  requireCols weather_effect_required "Missing required column: " t

/-- `traffic_optimization.preprocess` lines 64–65: a missing `delay_penalty`
column — the target metric itself — is silently zero-filled, not an error. -/
def traffic_fill_delay_penalty (t : Table) : Table :=
  if hasCol t "delay_penalty" then t
  else t ++ [("delay_penalty", List.replicate (nrows t) 0)]

/-- Columns `weather_optimization.preprocess` zero-fills when missing. -/
def weather_required : List String :=
  ["temperature", "humidity", "asset_utilization", "idle_cost", "cost_per_asset_utilization"]

/-- The zero-filling of `weather_optimization.preprocess` (never raises). -/
def weather_preprocess_fill (t : Table) : Table × List String :=
  fillZeros (nrows t) t weather_required

/-! The traffic module (`analyze_traffic_cost`): group by
(dayofweek, hour, traffic_status), support-filter, weight the mean penalty by
relative trip count, and pick the minimal-weight row per weekday. -/

/-- A record of the traffic module after `preprocess` (hour and weekday
present, `traffic_status` and `delay_penalty` filled). -/
structure TRec where
  dayofweek : String
  hour : ℕ
  traffic_status : String
  delay_penalty : ℚ
deriving DecidableEq

/-- The group key `(dayofweek, hour, traffic_status)` with its lexicographic
order — the order in which pandas `groupby` sorts the groups. -/
abbrev TKey := Lex (String × Lex (ℕ × String))

/-- Key of one record. -/
def tkey (r : TRec) : TKey := toLex (r.dayofweek, toLex (r.hour, r.traffic_status))

/-- One aggregate row of the traffic summary. -/
structure TSum where
  key : TKey
  avg_penalty : ℚ
  total_penalty : ℚ
  trips : ℕ
deriving DecidableEq

/-- The distinct group keys in the sorted order `groupby` emits them. -/
def tkeys (l : List TRec) : List TKey :=
  List.insertionSort (fun a b => a ≤ b) ((l.map tkey).dedup)

/-- The aggregate row of one group: mean, sum and count of `delay_penalty`
(`trips` counts the group's records). -/
def trow (l : List TRec) (k : TKey) : TSum :=
  let g := l.filter fun r => tkey r == k
  { key := k, trips := g.length,
    total_penalty := (g.map fun r => r.delay_penalty).sum,
    avg_penalty := avgQ (g.map fun r => r.delay_penalty) }

/-- `summary = df.groupby(["dayofweek","hour","traffic_status"]).agg(...)`,
rows in sorted key order. -/
def tsummary (l : List TRec) : List TSum := (tkeys l).map (trow l)

/-- Support Filter of the traffic module
(`summary[summary["trips"] >= min_trips_threshold]`). -/
def supportFilterT (rows : List TSum) (n : ℕ) : List TSum :=
  rows.filter fun r => n ≤ r.trips

/-- The support-filtered summary. -/
def tfiltered (l : List TRec) (θ : ℕ) : List TSum := supportFilterT (tsummary l) θ

/-- `summary["trips"].max()`: computed once, globally over the filtered set. -/
def tmaxTrips (l : List TRec) (θ : ℕ) : ℕ :=
  ((tfiltered l θ).map fun s => s.trips).foldr max 0

/-- `weighted_penalty = avg_penalty * (trips / trips.max())`. -/
def tweight (gmax : ℕ) (s : TSum) : ℚ := s.avg_penalty * ((s.trips : ℚ) / (gmax : ℚ))

/-- The weekday component of a group key. -/
def dayOfKey (k : TKey) : String := (ofLex k).1

/-- The distinct weekdays of the filtered summary in sorted order — the order
of `summary.groupby("dayofweek")`. -/
def tdays (l : List TRec) (θ : ℕ) : List String :=
  List.insertionSort (fun a b => a ≤ b) (((tfiltered l θ).map fun s => dayOfKey s.key).dedup)

/-- `summary.loc[summary.groupby("dayofweek")["weighted_penalty"].idxmin()]`:
for each weekday, the first row (in the summary's sorted row order) whose
weighted penalty is minimal within that weekday. -/
def trecommend (l : List TRec) (θ : ℕ) : List TSum :=
  (tdays l θ).filterMap fun d =>
    firstMin (tweight (tmaxTrips l θ)) ((tfiltered l θ).filter fun s => dayOfKey s.key == d)

/-- Concrete input for exercising `analyze_weather_effect`: ten identical
records at 12 °C, 50 % humidity, penalty 6. -/
def c3recs : List WRec := List.replicate 10 ⟨12, 50, 6⟩

/-- The recommendation `analyze_weather_effect` emits on `c3recs`. -/
def c3out : WOut := ⟨"10–15°C", "40–50%", 6, 6, 0, 10, 10⟩

/-- Concrete input for exercising the count-sum property. -/
def c4recs : List WRec := [⟨5, 50, 6⟩, ⟨-3, 20, 1⟩]

/-- Concrete traffic records for exercising the per-weekday selection. -/
def c2recs : List TRec :=
  [⟨"Monday", 8, "Clear", 10⟩, ⟨"Monday", 8, "Clear", 12⟩, ⟨"Friday", 9, "Heavy", 5⟩]

theorem tempBins_total (v : ℚ) : pdCut tempBins tempLabels false v ≠ none := by
  unfold pdCut tempBins tempLabels
  by_cases h1 : v ≤ 10
  · simp [pdCutGo, blt, ble, h1]
  by_cases h2 : v ≤ 15
  · simp [pdCutGo, blt, ble, h1, h2]
  by_cases h3 : v ≤ 20
  · simp [pdCutGo, blt, ble, h1, h2, h3]
  by_cases h4 : v ≤ 25
  · simp [pdCutGo, blt, ble, h1, h2, h3, h4]
  by_cases h5 : v ≤ 30
  · simp [pdCutGo, blt, ble, h1, h2, h3, h4, h5]
  by_cases h6 : v ≤ 35
  · simp [pdCutGo, blt, ble, h1, h2, h3, h4, h5, h6]
  · simp [pdCutGo, blt, ble, h1, h2, h3, h4, h5, h6]

theorem humBins_some (v : ℚ) (hv : 0 < v) : pdCut humBins humLabels false v ≠ none := by
  unfold pdCut humBins humLabels
  by_cases h1 : v ≤ 20
  · simp [pdCutGo, blt, ble, hv, h1]
  by_cases h2 : v ≤ 30
  · simp [pdCutGo, blt, ble, hv, h1, h2]
  by_cases h3 : v ≤ 40
  · simp [pdCutGo, blt, ble, hv, h1, h2, h3]
  by_cases h4 : v ≤ 50
  · simp [pdCutGo, blt, ble, hv, h1, h2, h3, h4]
  by_cases h5 : v ≤ 60
  · simp [pdCutGo, blt, ble, hv, h1, h2, h3, h4, h5]
  by_cases h6 : v ≤ 70
  · simp [pdCutGo, blt, ble, hv, h1, h2, h3, h4, h5, h6]
  by_cases h7 : v ≤ 80
  · simp [pdCutGo, blt, ble, hv, h1, h2, h3, h4, h5, h6, h7]
  · simp [pdCutGo, blt, ble, hv, h1, h2, h3, h4, h5, h6, h7]

theorem humBins_none_iff (v : ℚ) : pdCut humBins humLabels false v = none ↔ v ≤ 0 := by
  constructor
  · intro h
    by_contra hv
    push_neg at hv
    exact humBins_some v hv h
  · intro hv
    have c0 : ¬ (0 : ℚ) < v := by linarith
    have c1 : v ≤ 20 := by linarith
    have c2 : v ≤ 30 := by linarith
    have c3 : v ≤ 40 := by linarith
    have c4 : v ≤ 50 := by linarith
    have c5 : v ≤ 60 := by linarith
    have c6 : v ≤ 70 := by linarith
    have c7 : v ≤ 80 := by linarith
    simp [pdCut, pdCutGo, humBins, humLabels, blt, ble, c0, c1, c2, c3, c4, c5, c6, c7, hv]

theorem assetBins_some (v : ℚ) (hv : 0 ≤ v) : pdCut assetBins assetLabels true v ≠ none := by
  unfold pdCut assetBins assetLabels
  by_cases h1 : v ≤ 2/5
  · simp [pdCutGo, blt, ble, hv, h1]
  by_cases h2 : v ≤ 3/5
  · simp [pdCutGo, blt, ble, hv, h1, h2]
  by_cases h3 : v ≤ 4/5
  · simp [pdCutGo, blt, ble, hv, h1, h2, h3]
  by_cases h4 : v ≤ 1
  · simp [pdCutGo, blt, ble, hv, h1, h2, h3, h4]
  · simp [pdCutGo, blt, ble, hv, h1, h2, h3, h4]

theorem assetBins_none_iff (v : ℚ) : pdCut assetBins assetLabels true v = none ↔ v < 0 := by
  constructor
  · intro h
    by_contra hv
    push_neg at hv
    exact assetBins_some v hv h
  · intro hv
    have c0 : ¬ (0 : ℚ) ≤ v := by linarith
    have c00 : v ≤ 0 := le_of_lt hv
    have c1 : v ≤ 2/5 := by linarith
    have c2 : v ≤ 3/5 := by linarith
    have c3 : v ≤ 4/5 := by linarith
    have c4 : v ≤ 1 := by linarith
    simp [pdCut, pdCutGo, assetBins, assetLabels, blt, ble, c0, c00, c1, c2, c3, c4, hv]

theorem wxTempBins_total (v : ℚ) : pdCut wxTempBins wxTempLabels false v ≠ none := by
  unfold pdCut wxTempBins wxTempLabels
  by_cases h1 : v ≤ 20
  · simp [pdCutGo, blt, ble, h1]
  by_cases h2 : v ≤ 25
  · simp [pdCutGo, blt, ble, h1, h2]
  by_cases h3 : v ≤ 30
  · simp [pdCutGo, blt, ble, h1, h2, h3]
  by_cases h4 : v ≤ 35
  · simp [pdCutGo, blt, ble, h1, h2, h3, h4]
  · simp [pdCutGo, blt, ble, h1, h2, h3, h4]

theorem wxHumBins_total (v : ℚ) : pdCut wxHumBins wxHumLabels false v ≠ none := by
  unfold pdCut wxHumBins wxHumLabels
  by_cases h1 : v ≤ 40
  · simp [pdCutGo, blt, ble, h1]
  by_cases h2 : v ≤ 60
  · simp [pdCutGo, blt, ble, h1, h2]
  by_cases h3 : v ≤ 80
  · simp [pdCutGo, blt, ble, h1, h2, h3]
  · simp [pdCutGo, blt, ble, h1, h2, h3]

/-- C1 (corrected): with strictly increasing boundaries, `pandas.cut` maps every
covered value into exactly one labeled interval, but with LOWER-EXCLUSIVE,
UPPER-INCLUSIVE semantics (`right=True`): a value equal to an interior boundary
falls into the interval for which that boundary is the UPPER edge; with
boundaries `[0,10,20]` the value 10 maps to the "0–10" label, and in the
delay-penalty weather instance temperature 10 maps to "<10°C", not "10–15°C".
The lowest interval includes its lower boundary only when `include_lowest`
is set (asset instance). -/
theorem binning_interval_semantics :
    (∀ (bins : List B) (inc : Bool) (v : ℚ) (i j : ℕ),
        List.Chain' bltP bins → i + 1 < bins.length → j + 1 < bins.length →
        binHit bins inc v i = true → binHit bins inc v j = true → i = j) ∧
    (∀ (bins : List B) (labels : List String) (inc : Bool) (v : ℚ) (i : ℕ),
        List.Chain' bltP bins → bins.length = labels.length + 1 → i < labels.length →
        binHit bins inc v i = true →
        pdCut bins labels inc v = some (labels.getD i "")) ∧
    pdCut [B.fin 0, B.fin 10, B.fin 20] ["0–10", "10–20"] false 10 = some "0–10" ∧
    pdCut tempBins tempLabels false 10 = some "<10°C" := by
  refine ⟨binHit_unique, ?_, ?_, ?_⟩
  · intro bins labels inc v i hc hlen hi hh
    exact pdCutGo_complete bins labels inc v i hc (by omega) hi hh
  · with_unfolding_all rfl
  · with_unfolding_all rfl

/-- C1 witness: the general mapping statement applied to the humidity bins of
the delay-penalty weather instance at value 25, which lies in interval 1,
`(20, 30]`. -/
theorem binning_interval_semantics_witness :
    pdCut humBins humLabels false 25 = some (humLabels.getD 1 "") := by
  apply binning_interval_semantics.2.1 humBins humLabels false 25 1
  · simp [humBins, List.chain'_cons, bltP, blt, ble]
    norm_num
  · with_unfolding_all rfl
  · with_unfolding_all decide
  · with_unfolding_all rfl

/-- C1 counterexample: the claim asserts that with boundaries `[0,10,20]` the
value 10 maps to the "10–20" label and never to "0–10"; the code (right-closed
`pandas.cut`) maps it to "0–10". -/
theorem binning_lower_inclusive_refuted :
    pdCut [B.fin 0, B.fin 10, B.fin 20] ["0–10", "10–20"] false 10 = some "0–10" ∧
    some "0–10" ≠ some "10–20" := by
  exact ⟨by with_unfolding_all rfl, by decide⟩

/-- C5 (corrected): binning yields the null category exactly when the boundary
list does not cover the value under right-closed semantics.  Temperature bins
(both weather modules, −∞ lower end) cover every value, and the asset bins cover
every non-negative value (`include_lowest`), but the humidity bins of the
delay-penalty weather instance start at boundary 0 without `include_lowest`,
so the upstream missing-value coercion to 0 lands in NO interval and yields the
null category — contrary to the claim that this never occurs. -/
theorem binning_zero_and_coverage :
    (∀ v : ℚ, pdCut tempBins tempLabels false v ≠ none) ∧
    (∀ v : ℚ, pdCut humBins humLabels false v = none ↔ v ≤ 0) ∧
    (∀ v : ℚ, pdCut assetBins assetLabels true v = none ↔ v < 0) ∧
    (∀ v : ℚ, pdCut wxTempBins wxTempLabels false v ≠ none) ∧
    (∀ v : ℚ, pdCut wxHumBins wxHumLabels false v ≠ none) ∧
    pdCut humBins humLabels false 0 = none ∧
    pdCut tempBins tempLabels false 0 = some "<10°C" ∧
    pdCut assetBins assetLabels true 0 = some "0–40%" := by
  refine ⟨tempBins_total, humBins_none_iff, assetBins_none_iff, wxTempBins_total,
    wxHumBins_total, ?_, ?_, ?_⟩
  · with_unfolding_all rfl
  · with_unfolding_all rfl
  · with_unfolding_all rfl

/-- C5 counterexample: binning the upstream zero-coercion of a missing humidity
value yields the null category in the delay-penalty weather instance, refuting
the claim that binning an input of exactly 0 never yields the null category. -/
theorem binning_zero_null_category :
    pdCut humBins humLabels false 0 = none := by
  with_unfolding_all rfl

/-! Generic facts about `firstMin` (pandas `idxmin`). -/

theorem firstMin_mem {α : Type} {f : α → ℚ} {l : List α} {a : α}
    (h : firstMin f l = some a) : a ∈ l :=
  List.mem_of_find?_eq_some h

theorem firstMin_le {α : Type} {f : α → ℚ} {l : List α} {a : α}
    (h : firstMin f l = some a) : ∀ b ∈ l, f a ≤ f b := by
  have h2 := List.find?_some h
  simp only [List.all_eq_true, decide_eq_true_eq] at h2
  exact h2

theorem exists_list_min {α : Type} (f : α → ℚ) :
    ∀ (l : List α), l ≠ [] → ∃ a ∈ l, ∀ b ∈ l, f a ≤ f b
  | [], h => absurd rfl h
  | [x], _ => ⟨x, by simp⟩
  | x :: y :: t, _ => by
    obtain ⟨a, ha, hmin⟩ := exists_list_min f (y :: t) (by simp)
    rcases le_total (f x) (f a) with h | h
    · refine ⟨x, by simp, ?_⟩
      intro b hb
      rcases List.mem_cons.mp hb with rfl | hb
      · exact le_refl _
      · exact le_trans h (hmin b hb)
    · refine ⟨a, List.mem_cons_of_mem _ ha, ?_⟩
      intro b hb
      rcases List.mem_cons.mp hb with rfl | hb
      · exact h
      · exact hmin b hb

theorem firstMin_isSome {α : Type} (f : α → ℚ) (l : List α) (h : l ≠ []) :
    ∃ a, firstMin f l = some a := by
  obtain ⟨a, ha, hmin⟩ := exists_list_min f l h
  have h2 : ∃ x ∈ l, (l.all fun b => decide (f x ≤ f b)) = true := by
    refine ⟨a, ha, ?_⟩
    simp only [List.all_eq_true, decide_eq_true_eq]
    exact hmin
  have h3 := List.find?_isSome.mpr h2
  exact Option.isSome_iff_exists.mp h3

/-- The first element of a pairwise-ordered list satisfying a predicate is
related (or equal) to every element satisfying it. -/
theorem find?_first_pairwise {α : Type} {p : α → Bool} {r : α → α → Prop} :
    ∀ {l : List α}, List.Pairwise r l → ∀ {a b : α}, List.find? p l = some a →
      b ∈ l → p b = true → a = b ∨ r a b := by
  intro l
  induction l with
  | nil => intro _ a b h; simp at h
  | cons x t ih =>
    intro hpw a b hfind hb hpb
    rcases hx : p x with hfalse | htrue
    · rw [List.find?_cons_of_neg _ (by simp [hx])] at hfind
      rcases List.mem_cons.mp hb with rfl | hb2
      · rw [hx] at hpb; exact absurd hpb (by simp)
      · exact ih (List.Pairwise.of_cons hpw) hfind hb2 hpb
    · rw [List.find?_cons_of_pos _ hx] at hfind
      have ha : a = x := by simpa using hfind.symm
      subst ha
      rcases List.mem_cons.mp hb with rfl | hb2
      · exact Or.inl rfl
      · exact Or.inr ((List.pairwise_cons.mp hpw).1 b hb2)

/-- C6 (confirmed): the Support Filter returns exactly the rows whose count
meets the minimum, it is idempotent (in both its ARow and traffic-summary
instantiations), and the minimum-count threshold defaults to 5 in the traffic
and weather-efficiency instantiations and to 10 in the delay-penalty
weather-by-temperature/humidity instantiation; the asset and driver
instantiations do not invoke the Support Filter at all. -/
theorem support_filter_exact_and_defaults :
    (∀ (rows : List ARow) (n : ℕ) (r : ARow),
        r ∈ supportFilter rows n ↔ (r ∈ rows ∧ n ≤ r.count)) ∧
    (∀ (rows : List ARow) (n : ℕ),
        supportFilter (supportFilter rows n) n = supportFilter rows n) ∧
    (∀ (rows : List TSum) (n : ℕ) (r : TSum),
        r ∈ supportFilterT rows n ↔ (r ∈ rows ∧ n ≤ r.trips)) ∧
    (∀ (rows : List TSum) (n : ℕ),
        supportFilterT (supportFilterT rows n) n = supportFilterT rows n) ∧
    analyze_traffic_default_min_trips = 5 ∧
    analyze_weather_default_min_trips = 5 ∧
    analyze_weather_effect_default_min_records = 10 := by
  refine ⟨?_, ?_, ?_, ?_, rfl, rfl, rfl⟩
  · intro rows n r
    simp [supportFilter, List.mem_filter]
  · intro rows n
    apply List.filter_eq_self.mpr
    intro a ha
    exact (List.mem_filter.mp ha).2
  · intro rows n r
    simp [supportFilterT, List.mem_filter]
  · intro rows n
    apply List.filter_eq_self.mpr
    intro a ha
    exact (List.mem_filter.mp ha).2

/-! Quantile tiering (claims C9 and C10). -/

theorem assetTiers_mem {scores : List ℚ} {s : ℚ} {t : String}
    (h : (s, t) ∈ assetTiers scores) :
    s ∈ scores ∧
      t = performance_tier (quantile scores (33/100)) (quantile scores (67/100)) s := by
  simp only [assetTiers, List.mem_map] at h
  obtain ⟨x, hx, hexy⟩ := h
  have h1 : x = s := congrArg Prod.fst hexy
  have h2 : performance_tier (quantile scores (33/100)) (quantile scores (67/100)) x = t :=
    congrArg Prod.snd hexy
  subst h1
  exact ⟨hx, h2.symm⟩

theorem tier_iff (qlow qhigh s : ℚ) :
    (performance_tier qlow qhigh s = "High Performer" ↔ qhigh ≤ s) ∧
    (performance_tier qlow qhigh s = "Underperformer" ↔ s ≤ qlow ∧ s < qhigh) ∧
    (performance_tier qlow qhigh s = "Moderate Performer" ↔ qlow < s ∧ s < qhigh) := by
  have d12 : ("High Performer" : String) ≠ "Underperformer" := by decide
  have d13 : ("High Performer" : String) ≠ "Moderate Performer" := by decide
  have d21 : ("Underperformer" : String) ≠ "High Performer" := by decide
  have d23 : ("Underperformer" : String) ≠ "Moderate Performer" := by decide
  have d31 : ("Moderate Performer" : String) ≠ "High Performer" := by decide
  have d32 : ("Moderate Performer" : String) ≠ "Underperformer" := by decide
  by_cases h1 : qhigh ≤ s
  · have hna : ¬ s < qhigh := not_lt.mpr h1
    simp [performance_tier, h1, hna, d12, d13]
  by_cases h2 : s ≤ qlow
  · have hlt : s < qhigh := not_le.mp h1
    have hnq : ¬ qlow < s := not_lt.mpr h2
    simp [performance_tier, h1, h2, hlt, hnq, d21, d23]
  · have hlt : s < qhigh := not_le.mp h1
    have hql : qlow < s := not_le.mp h2
    simp [performance_tier, h1, h2, hlt, hql, d31, d32]

/-- C9 (confirmed): the quantile tiering policy assigns "High Performer"
exactly when the score is at least the 67th percentile, "Underperformer"
exactly when the score is at most the 33rd percentile and below the 67th (the
high check is evaluated first), and "Moderate Performer" otherwise; on scores
[10..90] the entities with scores ≤ 30 are underperformers, those ≥ 70 high
performers, and the rest moderate. -/
theorem quantile_tier_policy :
    (∀ (scores : List ℚ) (s : ℚ) (t : String), scores ≠ [] →
        (s, t) ∈ assetTiers scores →
        ((t = "High Performer" ↔ quantile scores (67/100) ≤ s) ∧
         (t = "Underperformer" ↔
            s ≤ quantile scores (33/100) ∧ s < quantile scores (67/100)) ∧
         (t = "Moderate Performer" ↔
            quantile scores (33/100) < s ∧ s < quantile scores (67/100)))) ∧
    assetTiers [10, 20, 30, 40, 50, 60, 70, 80, 90] =
      [(10, "Underperformer"), (20, "Underperformer"), (30, "Underperformer"),
       (40, "Moderate Performer"), (50, "Moderate Performer"), (60, "Moderate Performer"),
       (70, "High Performer"), (80, "High Performer"), (90, "High Performer")] := by
  constructor
  · intro scores s t hne hmem
    obtain ⟨hs, rfl⟩ := assetTiers_mem hmem
    exact tier_iff _ _ s
  · with_unfolding_all rfl

/-- C9 witness: the policy characterization applied to the score 10 of the
spec's nine-score example, which the code classifies as "Underperformer". -/
theorem quantile_tier_policy_witness :
    ((("Underperformer" : String) = "High Performer" ↔
        quantile [10, 20, 30, 40, 50, 60, 70, 80, 90] (67/100) ≤ (10 : ℚ)) ∧
     (("Underperformer" : String) = "Underperformer" ↔
        (10 : ℚ) ≤ quantile [10, 20, 30, 40, 50, 60, 70, 80, 90] (33/100) ∧
        (10 : ℚ) < quantile [10, 20, 30, 40, 50, 60, 70, 80, 90] (67/100)) ∧
     (("Underperformer" : String) = "Moderate Performer" ↔
        quantile [10, 20, 30, 40, 50, 60, 70, 80, 90] (33/100) < (10 : ℚ) ∧
        (10 : ℚ) < quantile [10, 20, 30, 40, 50, 60, 70, 80, 90] (67/100))) :=
  quantile_tier_policy.1 [10, 20, 30, 40, 50, 60, 70, 80, 90] 10 "Underperformer"
    (by simp) (by with_unfolding_all decide)

theorem quantile_const (scores : List ℚ) (s0 : ℚ) (hne : scores ≠ [])
    (hall : ∀ s ∈ scores, s = s0) (q : ℚ) (_hq0 : 0 ≤ q) (hq1 : q ≤ 1) :
    quantile scores q = s0 := by
  have hperm := List.perm_insertionSort (fun a b : ℚ => a ≤ b) scores
  unfold quantile
  set ss := sortQ scores with hss
  have hmem : ∀ x ∈ ss, x = s0 := fun x hx => hall x (hperm.subset hx)
  have hlenq : ss.length = scores.length := hperm.length_eq
  have hn : ss.length ≠ 0 := by
    rw [hlenq]
    simpa using hne
  rw [if_neg hn]
  dsimp only
  have hn1 : 1 ≤ ss.length := Nat.one_le_iff_ne_zero.mpr hn
  set h := q * ((ss.length : ℚ) - 1) with hh
  set j := (⌊h⌋).toNat with hj
  have hjn : j < ss.length := by
    have hnn : (0 : ℚ) ≤ (ss.length : ℚ) - 1 := by
      have : (1 : ℚ) ≤ (ss.length : ℚ) := by exact_mod_cast hn1
      linarith
    have hup : h ≤ (ss.length : ℚ) - 1 := by
      rw [hh]
      nlinarith
    have hcast : ((ss.length - 1 : ℕ) : ℚ) = (ss.length : ℚ) - 1 := by
      push_cast [hn1]
      ring
    have hfl : ⌊h⌋ ≤ (ss.length - 1 : ℕ) := by
      have := Int.floor_le_floor hup
      rw [← hcast] at this
      simpa using this
    have : j ≤ ss.length - 1 := Int.toNat_le.mpr hfl
    omega
  have ha : ss.getD j 0 = s0 := by
    rw [getD_of_lt hjn]
    exact hmem _ (List.get_mem ss j hjn)
  have hb : ss.getD (j + 1) (ss.getD j 0) = s0 := by
    by_cases hj1 : j + 1 < ss.length
    · rw [getD_of_lt hj1]
      exact hmem _ (List.get_mem ss (j + 1) hj1)
    · have hge : ss.length ≤ j + 1 := Nat.le_of_not_lt hj1
      rw [List.getD_eq_getElem?_getD, List.getElem?_eq_none hge]
      simpa using ha
  rw [hb, ha]
  ring

/-- C10 (confirmed): when every entity has the same efficiency score, both
percentile thresholds equal that score and — because the `>= q_high` branch is
evaluated first — every entity is classified "High Performer". -/
theorem quantile_tier_all_equal :
    ∀ (scores : List ℚ) (s0 : ℚ), scores ≠ [] → (∀ s ∈ scores, s = s0) →
      quantile scores (33/100) = s0 ∧ quantile scores (67/100) = s0 ∧
      ∀ p ∈ assetTiers scores, p.2 = "High Performer" := by
  intro scores s0 hne hall
  have h33 := quantile_const scores s0 hne hall (33/100) (by norm_num) (by norm_num)
  have h67 := quantile_const scores s0 hne hall (67/100) (by norm_num) (by norm_num)
  refine ⟨h33, h67, ?_⟩
  intro p hp
  simp only [assetTiers, List.mem_map] at hp
  obtain ⟨x, hx, rfl⟩ := hp
  have hxs : x = s0 := hall x hx
  subst hxs
  simp [performance_tier, h67]

/-- C10 witness: three identical scores all tier as "High Performer" with both
thresholds equal to the common score. -/
theorem quantile_tier_all_equal_witness :
    quantile [(5 : ℚ), 5, 5] (33/100) = 5 ∧ quantile [(5 : ℚ), 5, 5] (67/100) = 5 ∧
    ∀ p ∈ assetTiers [(5 : ℚ), 5, 5], p.2 = "High Performer" :=
  quantile_tier_all_equal [5, 5, 5] 5 (by simp) (by with_unfolding_all decide)

/-- C3 (confirmed): when the delay-penalty weather analysis produces a
recommendation, the reported minimum average penalty is the arithmetic mean of
the independently optimal temperature group's mean penalty and the
independently optimal humidity group's mean penalty, the reported current
value is the unfiltered, ungrouped mean of the delay penalty over every input
record, and the estimated savings is current minus the combined optimum — each
rounded to 2 decimal places at emission.  The hypothesis `1 ≤ min_records`
keeps the model aligned with pandas, where empty bins have NaN means and are
removed by the support filter. -/
theorem weather_effect_combined_optimum :
    ∀ (recs : List WRec) (n : ℕ) (o : WOut), 1 ≤ n →
      analyze_weather_effect recs n = some o →
      ∃ mt mh,
        mt ∈ (supportFilter (temp_summary recs) n).map (fun r => r.avg) ∧
        (∀ a ∈ (supportFilter (temp_summary recs) n).map (fun r => r.avg), mt ≤ a) ∧
        mh ∈ (supportFilter (humidity_summary recs) n).map (fun r => r.avg) ∧
        (∀ a ∈ (supportFilter (humidity_summary recs) n).map (fun r => r.avg), mh ≤ a) ∧
        o.min_avg_penalty = round2 ((mt + mh) / 2) ∧
        o.current_avg_penalty = round2 (avgQ (recs.map fun r => r.delay_penalty)) ∧
        o.estimated_savings_per_trip =
          round2 (avgQ (recs.map fun r => r.delay_penalty) - (mt + mh) / 2) := by
  intro recs n o _hn h
  simp only [analyze_weather_effect] at h
  cases ht : firstMin (fun r : ARow => r.avg) (supportFilter (temp_summary recs) n) with
  | none =>
    rw [ht] at h
    simp at h
  | some ot =>
    cases hh : firstMin (fun r : ARow => r.avg) (supportFilter (humidity_summary recs) n) with
    | none =>
      rw [ht, hh] at h
      simp at h
    | some oh =>
      rw [ht, hh] at h
      simp only [Option.some.injEq] at h
      subst h
      refine ⟨ot.avg, oh.avg, List.mem_map_of_mem _ (firstMin_mem ht), ?_,
        List.mem_map_of_mem _ (firstMin_mem hh), ?_, rfl, rfl, rfl⟩
      · intro a ha
        obtain ⟨row, hrow, rfl⟩ := List.mem_map.mp ha
        exact firstMin_le ht row hrow
      · intro a ha
        obtain ⟨row, hrow, rfl⟩ := List.mem_map.mp ha
        exact firstMin_le hh row hrow

/-- C3 witness: the combination property applied to the concrete run on ten
identical records, whose recommendation is `c3out`. -/
theorem weather_effect_combined_optimum_witness :
    ∃ mt mh,
      mt ∈ (supportFilter (temp_summary c3recs) 10).map (fun r => r.avg) ∧
      (∀ a ∈ (supportFilter (temp_summary c3recs) 10).map (fun r => r.avg), mt ≤ a) ∧
      mh ∈ (supportFilter (humidity_summary c3recs) 10).map (fun r => r.avg) ∧
      (∀ a ∈ (supportFilter (humidity_summary c3recs) 10).map (fun r => r.avg), mh ≤ a) ∧
      c3out.min_avg_penalty = round2 ((mt + mh) / 2) ∧
      c3out.current_avg_penalty = round2 (avgQ (c3recs.map fun r => r.delay_penalty)) ∧
      c3out.estimated_savings_per_trip =
        round2 (avgQ (c3recs.map fun r => r.delay_penalty) - (mt + mh) / 2) :=
  weather_effect_combined_optimum c3recs 10 c3out (by norm_num)
    (by with_unfolding_all rfl)

/-! Count-sum of the Grouped Aggregator (claim C4). -/

theorem counts_cons {α K : Type} (cats : List K) (p : K → α → Bool) (a : α) (t : List α) :
    (cats.map fun c => ((a :: t).filter (p c)).length).sum
      = (cats.map fun c => (t.filter (p c)).length).sum + (cats.countP fun c => p c a) := by
  induction cats with
  | nil => simp
  | cons c cs ih =>
    simp only [List.map_cons, List.sum_cons, List.countP_cons]
    rw [ih, List.filter_cons]
    by_cases hc : p c a = true
    · rw [if_pos hc, if_pos hc, List.length_cons]
      omega
    · rw [if_neg hc, if_neg hc]
      omega

theorem counts_sum_length {α K : Type} (cats : List K) (p : K → α → Bool) :
    ∀ recs : List α, (∀ r ∈ recs, (cats.countP fun c => p c r) = 1) →
      (cats.map fun c => (recs.filter (p c)).length).sum = recs.length
  | [], _ => by simp
  | a :: t, hone => by
    rw [counts_cons,
      counts_sum_length cats p t (fun r hr => hone r (List.mem_cons_of_mem _ hr)),
      hone a (List.mem_cons_self _ _)]
    simp

theorem countP_decide_one {K : Type} [DecidableEq K] :
    ∀ {cats : List K}, cats.Nodup → ∀ {c0 : K}, c0 ∈ cats →
      (cats.countP fun c => decide (c = c0)) = 1
  | [], _, c0, h => absurd h (List.not_mem_nil c0)
  | c :: cs, hnd, c0, hmem => by
    rw [List.countP_cons]
    rcases List.mem_cons.mp hmem with rfl | hmem2
    · have hz : (cs.countP fun x => decide (x = c0)) = 0 := by
        apply List.countP_eq_zero.mpr
        intro a ha
        have hne : a ≠ c0 := by
          intro heq
          subst heq
          exact (List.nodup_cons.mp hnd).1 ha
        simp [hne]
      simp [hz]
    · have hne : c ≠ c0 := by
        intro heq
        subst heq
        exact (List.nodup_cons.mp hnd).1 hmem2
      have hrec := countP_decide_one (List.nodup_cons.mp hnd).2 hmem2
      simp [hrec, hne]

theorem countP_match_one {K : Type} [DecidableEq K] {cats : List K} (hnd : cats.Nodup)
    {x : Option K} {c0 : K} (hx : x = some c0) (hmem : c0 ∈ cats) :
    (cats.countP fun c => x == some c) = 1 := by
  have heq : (cats.countP fun c => x == some c) = cats.countP fun c => decide (c = c0) := by
    apply List.countP_congr
    intro c _
    by_cases hcc : c = c0
    · subst hcc; simp [hx]
    · simp [hx, hcc, Ne.symm hcc]
  rw [heq]
  exact countP_decide_one hnd hmem

theorem tkeys_nodup (l : List TRec) : (tkeys l).Nodup := by
  have hperm := List.perm_insertionSort (fun a b : TKey => a ≤ b) ((l.map tkey).dedup)
  exact hperm.symm.nodup (List.nodup_dedup _)

theorem tkey_mem_tkeys {l : List TRec} {r : TRec} (hr : r ∈ l) : tkey r ∈ tkeys l := by
  have h1 : tkey r ∈ (l.map tkey).dedup := List.mem_dedup.mpr (List.mem_map_of_mem _ hr)
  have hperm := List.perm_insertionSort (fun a b : TKey => a ≤ b) ((l.map tkey).dedup)
  exact hperm.symm.subset h1

theorem countP_key_one {l : List TRec} {r : TRec} (hr : r ∈ l) :
    ((tkeys l).countP fun kk => tkey r == kk) = 1 := by
  have heq : ((tkeys l).countP fun kk => tkey r == kk)
      = (tkeys l).countP fun kk => decide (kk = tkey r) := by
    apply List.countP_congr
    intro kk _
    simp only [beq_iff_eq, decide_eq_true_eq]
    exact eq_comm
  rw [heq]
  exact countP_decide_one (tkeys_nodup l) (tkey_mem_tkeys hr)

/-- C4 (confirmed): when the Grouped Aggregator groups by a total-covering
group key (every record carries some category of the grouping column), the
per-group counts sum to the total record count — both for the categorical
aggregator shared by the weather analyses and for the traffic module's
`groupby` over its observed (dayofweek, hour, traffic_status) keys, where the
key function is total by construction. -/
theorem grouped_counts_sum :
    (∀ (α : Type) (cats : List String) (recs : List α) (k : α → Option String)
        (tgt : α → ℚ), cats.Nodup → (∀ r ∈ recs, ∃ c ∈ cats, k r = some c) →
        ((summaryByCats cats recs k tgt).map fun row => row.count).sum = recs.length) ∧
    (∀ l : List TRec, ((tsummary l).map fun s => s.trips).sum = l.length) := by
  constructor
  · intro α cats recs k tgt hnd hcov
    have hmap : (summaryByCats cats recs k tgt).map (fun row => row.count)
        = cats.map fun c => (recs.filter fun r => k r == some c).length := by
      simp [summaryByCats, List.map_map]
    rw [hmap]
    refine counts_sum_length cats (fun c r => k r == some c) recs ?_
    intro r hr
    obtain ⟨c0, hc0mem, hc0⟩ := hcov r hr
    exact countP_match_one hnd hc0 hc0mem
  · intro l
    have hmap : (tsummary l).map (fun s => s.trips)
        = (tkeys l).map fun kk => (l.filter fun r => tkey r == kk).length := by
      simp [tsummary, trow, List.map_map]
    rw [hmap]
    exact counts_sum_length (tkeys l) (fun kk r => tkey r == kk) l
      (fun r hr => countP_key_one hr)

/-- C4 witness: the count-sum property on two concrete records grouped by
temperature range. -/
theorem grouped_counts_sum_witness :
    ((summaryByCats tempLabels c4recs tempRangeOf (fun r => r.delay_penalty)).map
        fun row => row.count).sum = c4recs.length :=
  grouped_counts_sum.1 WRec tempLabels c4recs tempRangeOf (fun r => r.delay_penalty)
    (by decide) (by with_unfolding_all decide)

/-! Missing-column behaviour (claim C8). -/

theorem requireCols_spec (req : List String) (msg : String) (t : Table) :
    (requireCols req msg t = .ok t ↔ ∀ c ∈ req, hasCol t c = true) ∧
    ((∃ m, requireCols req msg t = .error m) ↔ ∃ c ∈ req, hasCol t c = false) := by
  cases hfind : req.find? (fun c => !(hasCol t c)) with
  | none =>
    have hall := List.find?_eq_none.mp hfind
    constructor
    · constructor
      · intro _ c hc
        have := hall c hc
        simpa using this
      · intro _
        simp [requireCols, hfind]
    · constructor
      · rintro ⟨m, hm⟩
        simp [requireCols, hfind] at hm
      · rintro ⟨c, hc, hcol⟩
        have := hall c hc
        simp [hcol] at this
  | some c0 =>
    have hc0 := List.find?_some hfind
    have hc0mem : c0 ∈ req := List.mem_of_find?_eq_some hfind
    constructor
    · constructor
      · intro h
        exfalso
        simp [requireCols, hfind] at h
      · intro hall
        exfalso
        have := hall c0 hc0mem
        simp [this] at hc0
    · constructor
      · intro _
        exact ⟨c0, hc0mem, by simpa using hc0⟩
      · intro _
        exact ⟨msg ++ c0, by simp [requireCols, hfind]⟩

theorem hasCol_append (t u : Table) (c : String) :
    hasCol (t ++ u) c = (hasCol t c || hasCol u c) := by
  simp [hasCol, List.any_append]

theorem fillZeros_hasCol (n : ℕ) :
    ∀ (t : Table) (cs : List String) (c : String),
      (c ∈ cs ∨ hasCol t c = true) → hasCol (fillZeros n t cs).1 c = true
  | t, [], c, h => by
    rcases h with h | h
    · exact absurd h (List.not_mem_nil c)
    · simpa [fillZeros] using h
  | t, c0 :: cs, c, h => by
    rw [fillZeros]
    by_cases h0 : hasCol t c0 = true
    · rw [if_pos h0]
      apply fillZeros_hasCol n t cs c
      rcases h with h | h
      · rcases List.mem_cons.mp h with rfl | hm
        · exact Or.inr h0
        · exact Or.inl hm
      · exact Or.inr h
    · rw [if_neg h0]
      dsimp only
      apply fillZeros_hasCol n (t ++ [(c0, List.replicate n 0)]) cs c
      rcases h with h | h
      · rcases List.mem_cons.mp h with rfl | hm
        · right
          rw [hasCol_append]
          simp [hasCol]
        · exact Or.inl hm
      · right
        rw [hasCol_append, h]
        simp

/-- C8 (corrected): only the asset-utilization and delay-penalty-weather
instantiations fail with a Missing-Column error when a required column is
absent — and they do so exactly when one is absent.  The driver and
weather-efficiency instantiations instead zero-fill every missing required
column (including the core efficiency inputs) with a logged warning and never
fail, and the traffic instantiation silently zero-fills even a missing
`delay_penalty`, the target metric itself. -/
theorem missing_column_policy :
    (∀ t : Table, (asset_preprocess t = .ok t ↔ ∀ c ∈ asset_required, hasCol t c = true) ∧
      ((∃ m, asset_preprocess t = .error m) ↔ ∃ c ∈ asset_required, hasCol t c = false)) ∧
    (∀ t : Table, (weather_effect_preprocess_check t = .ok t ↔
        ∀ c ∈ weather_effect_required, hasCol t c = true) ∧
      ((∃ m, weather_effect_preprocess_check t = .error m) ↔
        ∃ c ∈ weather_effect_required, hasCol t c = false)) ∧
    (∀ t : Table, ∀ c ∈ driver_required, hasCol (driver_preprocess t).1 c = true) ∧
    (∀ t : Table, hasCol (traffic_fill_delay_penalty t) "delay_penalty" = true) ∧
    (∀ t : Table, ∀ c ∈ weather_required, hasCol (weather_preprocess_fill t).1 c = true) := by
  refine ⟨?_, ?_, ?_, ?_, ?_⟩
  · intro t
    exact requireCols_spec asset_required "Missing column: " t
  · intro t
    exact requireCols_spec weather_effect_required "Missing required column: " t
  · intro t c hc
    simp only [driver_preprocess]
    rw [hasCol_append,
      fillZeros_hasCol (nrows t) t driver_required c (Or.inl hc)]
    simp
  · intro t
    unfold traffic_fill_delay_penalty
    by_cases h : hasCol t "delay_penalty" = true
    · rw [if_pos h]
      exact h
    · rw [if_neg h, hasCol_append]
      simp [hasCol]
  · intro t c hc
    exact fillZeros_hasCol (nrows t) t weather_required c (Or.inl hc)

/-- C8 witness: the driver preprocess guarantees the presence of the core
column `asset_utilization` even on a table that lacks it. -/
theorem missing_column_policy_witness :
    hasCol (driver_preprocess [("waiting_time", [2]), ("idle_cost", [1])]).1
      "asset_utilization" = true :=
  missing_column_policy.2.2.1 [("waiting_time", [2]), ("idle_cost", [1])]
    "asset_utilization" (by decide)

/-- C8 counterexample: the driver instance does not fail when the core column
`asset_utilization` is absent; it zero-fills the column, logs a warning, and
computes the efficiency column anyway — refuting the claim that every
instantiation surfaces a Missing-Column error for absent core columns. -/
theorem driver_missing_column_no_error :
    driver_preprocess [("waiting_time", [2]), ("idle_cost", [1])]
      = ([("waiting_time", [2]), ("idle_cost", [1]), ("asset_utilization", [0]),
          ("efficiency", [0])],
         ["Missing column asset_utilization, filling with zeros."]) := by
  with_unfolding_all rfl

/-! The traffic module: permutation invariance, global weighting and
per-weekday selection (claims C2 and C7). -/

theorem tkeys_perm {l lp : List TRec} (h : l.Perm lp) : tkeys l = tkeys lp := by
  have h1 : ((l.map tkey).dedup).Perm ((lp.map tkey).dedup) := (h.map tkey).dedup
  have hp : (tkeys l).Perm (tkeys lp) :=
    ((List.perm_insertionSort _ _).trans h1).trans (List.perm_insertionSort _ _).symm
  exact List.eq_of_perm_of_sorted hp (List.sorted_insertionSort _ _)
    (List.sorted_insertionSort _ _)

theorem trow_perm {l lp : List TRec} (h : l.Perm lp) (k : TKey) : trow l k = trow lp k := by
  have hf : (l.filter fun r => tkey r == k).Perm (lp.filter fun r => tkey r == k) :=
    h.filter _
  have hlen := hf.length_eq
  have hsum := (hf.map fun r => r.delay_penalty).sum_eq
  have hlen2 := (hf.map fun r => r.delay_penalty).length_eq
  simp only [trow, avgQ]
  rw [hlen, hsum, hlen2]

theorem tsummary_perm {l lp : List TRec} (h : l.Perm lp) : tsummary l = tsummary lp := by
  unfold tsummary
  rw [tkeys_perm h]
  exact List.map_congr_left fun k _ => trow_perm h k

theorem trecommend_perm {l lp : List TRec} (h : l.Perm lp) (θ : ℕ) :
    trecommend l θ = trecommend lp θ := by
  unfold trecommend tdays tmaxTrips tfiltered
  rw [tsummary_perm h]

theorem tsummary_pairwise (l : List TRec) :
    List.Pairwise (fun a b : TSum => a.key ≤ b.key) (tsummary l) := by
  have hs : List.Sorted (fun a b : TKey => a ≤ b) (tkeys l) := List.sorted_insertionSort _ _
  unfold tsummary
  exact List.Pairwise.map (trow l) (fun a b hab => by simpa [trow] using hab) hs

theorem tfiltered_pairwise (l : List TRec) (θ : ℕ) :
    List.Pairwise (fun a b : TSum => a.key ≤ b.key) (tfiltered l θ) := by
  unfold tfiltered supportFilterT
  exact List.Pairwise.sublist (List.filter_sublist _) (tsummary_pairwise l)

theorem foldr_max_le {ns : List ℕ} {x : ℕ} (hx : x ∈ ns) : x ≤ ns.foldr max 0 := by
  induction ns with
  | nil => cases hx
  | cons a t ih =>
    rw [List.foldr_cons]
    rcases List.mem_cons.mp hx with rfl | h
    · exact le_max_left _ _
    · exact le_trans (ih h) (le_max_right _ _)

theorem foldr_max_mem : ∀ (ns : List ℕ), ns ≠ [] → ns.foldr max 0 ∈ ns
  | [a], _ => by simp
  | a :: b :: t, _ => by
    rw [List.foldr_cons]
    rcases le_total a ((b :: t).foldr max 0) with h | h
    · rw [max_eq_right h]
      exact List.mem_cons_of_mem _ (foldr_max_mem (b :: t) (by simp))
    · rw [max_eq_left h]
      exact List.mem_cons_self _ _

theorem filterMap_map_id {α β : Type} (g : β → α) :
    ∀ (ds : List α) (F : α → Option β), (∀ d ∈ ds, ∃ r, F d = some r ∧ g r = d) →
      (ds.filterMap F).map g = ds
  | [], _, _ => rfl
  | d :: ds, F, h => by
    obtain ⟨r, hr, hg⟩ := h d (List.mem_cons_self _ _)
    rw [List.filterMap_cons_some hr, List.map_cons, hg,
      filterMap_map_id g ds F (fun x hx => h x (List.mem_cons_of_mem _ hx))]

theorem tdays_spec (l : List TRec) (θ : ℕ) :
    ∀ d ∈ tdays l θ, ∃ s ∈ tfiltered l θ, dayOfKey s.key = d := by
  intro d hd
  unfold tdays at hd
  have h1 := (List.perm_insertionSort _ _).subset hd
  have h2 := List.mem_dedup.mp h1
  obtain ⟨s, hs, rfl⟩ := List.mem_map.mp h2
  exact ⟨s, hs, rfl⟩

theorem tdays_nodup (l : List TRec) (θ : ℕ) : (tdays l θ).Nodup := by
  unfold tdays
  exact (List.perm_insertionSort _ _).symm.nodup (List.nodup_dedup _)

theorem trecommend_select {l : List TRec} {θ : ℕ} {r : TSum} (hr : r ∈ trecommend l θ) :
    r ∈ tfiltered l θ ∧
      ∀ s ∈ tfiltered l θ, dayOfKey s.key = dayOfKey r.key →
        tweight (tmaxTrips l θ) r ≤ tweight (tmaxTrips l θ) s := by
  unfold trecommend at hr
  obtain ⟨d, hd, hfm⟩ := List.mem_filterMap.mp hr
  have hmem := firstMin_mem hfm
  have hrf : r ∈ tfiltered l θ := (List.mem_filter.mp hmem).1
  have hrd : dayOfKey r.key = d := by
    have := (List.mem_filter.mp hmem).2
    simpa using this
  refine ⟨hrf, ?_⟩
  intro s hs hsd
  have hsmem : s ∈ (tfiltered l θ).filter fun x => dayOfKey x.key == d := by
    rw [List.mem_filter]
    exact ⟨hs, by simp [hsd, hrd]⟩
  exact firstMin_le hfm s hsmem

theorem trecommend_tiebreak {l : List TRec} {θ : ℕ} {r s : TSum}
    (hr : r ∈ trecommend l θ) (hs : s ∈ tfiltered l θ)
    (hday : dayOfKey s.key = dayOfKey r.key)
    (htie : tweight (tmaxTrips l θ) s = tweight (tmaxTrips l θ) r) : r.key ≤ s.key := by
  unfold trecommend at hr
  obtain ⟨d, hd, hfm⟩ := List.mem_filterMap.mp hr
  have hmem := firstMin_mem hfm
  have hrd : dayOfKey r.key = d := by
    have := (List.mem_filter.mp hmem).2
    simpa using this
  have hpw : List.Pairwise (fun a b : TSum => a.key ≤ b.key)
      ((tfiltered l θ).filter fun x => dayOfKey x.key == d) :=
    List.Pairwise.sublist (List.filter_sublist _) (tfiltered_pairwise l θ)
  have hsmem : s ∈ (tfiltered l θ).filter fun x => dayOfKey x.key == d := by
    rw [List.mem_filter]
    exact ⟨hs, by simp [hday, hrd]⟩
  have hsp : (((tfiltered l θ).filter fun x => dayOfKey x.key == d).all
      fun b => decide (tweight (tmaxTrips l θ) s ≤ tweight (tmaxTrips l θ) b)) = true := by
    simp only [List.all_eq_true, decide_eq_true_eq]
    intro b hb
    rw [htie]
    exact firstMin_le hfm b hb
  simp only [firstMin] at hfm
  rcases find?_first_pairwise hpw hfm hsmem hsp with rfl | hle
  · exact le_refl _
  · exact hle

/-- C2 (confirmed): in the traffic instance the weighted aggregate of each
filtered row is its mean penalty times (its trip count divided by the maximum
trip count), where the maximum is the global maximum over the whole
support-filtered summary (first two conjuncts characterize `tmaxTrips` as that
global maximum); exactly one row is selected per distinct weekday present in
the filtered set (the selected rows' weekdays enumerate the distinct weekdays
without repetition), and each selected row minimizes the weighted penalty
among the filtered rows of its weekday. -/
theorem traffic_weighting_and_partition :
    ∀ (l : List TRec) (θ : ℕ),
      (∀ s ∈ tfiltered l θ, s.trips ≤ tmaxTrips l θ) ∧
      (tfiltered l θ ≠ [] → ∃ s ∈ tfiltered l θ, s.trips = tmaxTrips l θ) ∧
      (tdays l θ).Nodup ∧
      ((trecommend l θ).map fun s => dayOfKey s.key) = tdays l θ ∧
      (∀ r ∈ trecommend l θ, r ∈ tfiltered l θ ∧
        ∀ s ∈ tfiltered l θ, dayOfKey s.key = dayOfKey r.key →
          r.avg_penalty * ((r.trips : ℚ) / (tmaxTrips l θ : ℚ))
            ≤ s.avg_penalty * ((s.trips : ℚ) / (tmaxTrips l θ : ℚ))) := by
  intro l θ
  refine ⟨?_, ?_, tdays_nodup l θ, ?_, ?_⟩
  · intro s hs
    exact foldr_max_le (List.mem_map_of_mem (fun x => x.trips) hs)
  · intro hne
    have hne2 : ((tfiltered l θ).map fun s => s.trips) ≠ [] := by
      simpa using hne
    have hmem := foldr_max_mem _ hne2
    obtain ⟨s, hs, hval⟩ := List.mem_map.mp hmem
    exact ⟨s, hs, hval⟩
  · apply filterMap_map_id
    intro d hd
    obtain ⟨s, hs, hsd⟩ := tdays_spec l θ d hd
    have hne : (tfiltered l θ).filter (fun x => dayOfKey x.key == d) ≠ [] := by
      intro hemp
      have hmem : s ∈ (tfiltered l θ).filter fun x => dayOfKey x.key == d := by
        rw [List.mem_filter]
        exact ⟨hs, by simp [hsd]⟩
      rw [hemp] at hmem
      cases hmem
    obtain ⟨r, hrsome⟩ := firstMin_isSome (tweight (tmaxTrips l θ)) _ hne
    have hrd : dayOfKey r.key = d := by
      have := (List.mem_filter.mp (firstMin_mem hrsome)).2
      simpa using this
    exact ⟨r, hrsome, hrd⟩
  · intro r hr
    exact trecommend_select hr

/-- C2 witness: the global-maximum characterization applied to three concrete
records forming two weekday groups. -/
theorem traffic_weighting_and_partition_witness :
    ∃ s ∈ tfiltered c2recs 1, s.trips = tmaxTrips c2recs 1 :=
  (traffic_weighting_and_partition c2recs 1).2.1 (by with_unfolding_all decide)

/-- C7 (confirmed): the traffic selection is deterministic — row-order
permutations of the input records yield identical recommendation lists (the
groupby sorts groups, and the exact-rational aggregates are order-independent)
— and when two filtered rows of the same weekday tie exactly on the weighted
penalty, the selected row is the one least in the lexicographic order of the
group key (dayofweek, hour, traffic_status). -/
theorem traffic_selector_deterministic :
    (∀ (l lp : List TRec) (θ : ℕ), l.Perm lp → trecommend l θ = trecommend lp θ) ∧
    (∀ (l : List TRec) (θ : ℕ), ∀ r ∈ trecommend l θ, ∀ s ∈ tfiltered l θ,
        dayOfKey s.key = dayOfKey r.key →
        tweight (tmaxTrips l θ) s = tweight (tmaxTrips l θ) r →
        r.key ≤ s.key) := by
  constructor
  · intro l lp θ h
    exact trecommend_perm h θ
  · intro l θ r hr s hs hday htie
    exact trecommend_tiebreak hr hs hday htie

/-- C7 witness: permutation invariance of the recommendation list on a
concrete two-record input. -/
theorem traffic_selector_deterministic_witness :
    trecommend [⟨"Monday", 8, "Clear", 10⟩, ⟨"Friday", 9, "Heavy", 5⟩] 1
      = trecommend [⟨"Friday", 9, "Heavy", 5⟩, ⟨"Monday", 8, "Clear", 10⟩] 1 :=
  traffic_selector_deterministic.1 _ _ 1 (by with_unfolding_all decide)

end CTS
